import Mathlib

/-!
# Verification of the batch-reordering / state-threading core of `rnn_model.py`

Shallow embedding of the repository's single source file `src/rnn_model.py`:

* `reorder` (lines 66-116): the Sequencer that rearranges a 1D token stream
  into `(N, S)` input and shifted-by-one target arrays whose rows are laid
  out so that row `j` of sequential batch `k+1` continues row `j` of batch
  `k` in corpus order.  1D numpy arrays become `List ℤ`, 2D arrays become
  `List (List ℤ)`, and numpy operations that can raise (`reshape` on a
  mismatched size, the `%`/`//` by `batch_size*model_seq_len == 0`) make the
  embedding return `Option`: `none` models a Python exception.
* the per-epoch training loop (lines 330-347) and `calc_perplexity`
  (lines 303-328): the compiled Theano steppers `f_train` / `f_eval` are
  external collaborators, so they are modelled as an abstract function
  argument `f`; the loops' handling of the hidden-state variables is
  embedded literally.
-/

namespace RnnModel

/-- The numpy `astype('int32')` cast on one integer: wrap modulo `2^32` into
the signed range `[-2^31, 2^31)`. -/
def wrap32 (v : ℤ) : ℤ := (v + 2 ^ 31) % 2 ^ 32 - 2 ^ 31

/-- Lines 94-97 of `reorder`: `if x_in.shape[0] % (batch_size*model_seq_len)
== 0: x_in = x_in[:-1]`.  (`x_in[:-1]` on a numpy 1D array drops the last
element; on an empty array it stays empty, as `List.dropLast` does.) -/
def truncStream (x : List ℤ) (batch_size model_seq_len : ℕ) : List ℤ :=
  if x.length % (batch_size * model_seq_len) = 0 then x.dropLast else x

/-- Lines 99-100: `x_resize =
(x_in.shape[0] // (batch_size*model_seq_len))*model_seq_len*batch_size`. -/
def x_resize (len batch_size model_seq_len : ℕ) : ℕ :=
  (len / (batch_size * model_seq_len)) * model_seq_len * batch_size

/-- Line 101: `n_samples = x_resize // (model_seq_len)`. -/
def n_samples (len batch_size model_seq_len : ℕ) : ℕ :=
  x_resize len batch_size model_seq_len / model_seq_len

/-- Line 102: `n_batches = n_samples // batch_size`. -/
def n_batches (len batch_size model_seq_len : ℕ) : ℕ :=
  n_samples len batch_size model_seq_len / batch_size

/-- Row `i` of `xs.reshape(n, s)` is `xs[i*s : i*s + s]`. -/
def chunkRows (xs : List ℤ) (n s : ℕ) : List (List ℤ) :=
  (List.range n).map fun i => (xs.drop (i * s)).take s

/-- The numpy `reshape` of a 1D array of length `xs.length` into shape
`(n, s)`: raises `ValueError` (here: `none`) unless the sizes agree. -/
def reshape (xs : List ℤ) (n s : ℕ) : Option (List (List ℤ)) :=
  if xs.length = n * s then some (chunkRows xs n s) else none

/-- Line 104: `targets = x_in[1:x_resize+1].reshape(n_samples,
model_seq_len)` (applied to the already-truncated stream `x'`).  The Python
slice `x_in[1:x_resize+1]` clamps to the array's length, exactly as
`(x'.drop 1).take _` does; `reshape` then fails if the slice came up short. -/
def preTargets (x' : List ℤ) (batch_size model_seq_len : ℕ) :
    Option (List (List ℤ)) :=
  reshape ((x'.drop 1).take (x_resize x'.length batch_size model_seq_len))
    (n_samples x'.length batch_size model_seq_len) model_seq_len

/-- Line 105: `x_out = x_in[:x_resize].reshape(n_samples, model_seq_len)`
(applied to the already-truncated stream `x'`). -/
def preInputs (x' : List ℤ) (batch_size model_seq_len : ℕ) :
    Option (List (List ℤ)) :=
  reshape (x'.take (x_resize x'.length batch_size model_seq_len))
    (n_samples x'.length batch_size model_seq_len) model_seq_len

/-- Lines 107-111: the index array `out`.  `out` is allocated with
`np.zeros(n_samples)` and then the loop writes
`out[i*batch_size:(i+1)*batch_size] = range(i, n_batches*batch_size+i,
n_batches)` for `i` in `range(n_batches)`; the segments
`[i*batch_size, (i+1)*batch_size)` tile `[0, n_samples)` exactly (because
`n_samples = n_batches*batch_size`), so the final contents are the
concatenation, over `i`, of the `batch_size`-element arithmetic progressions
`[j*n_batches + i for j in range(batch_size)]`. -/
def permIndex (nb batch_size : ℕ) : List ℕ :=
  (List.range nb).flatMap fun i => (List.range batch_size).map fun j => j * nb + i

/-- Lines 113-114: the numpy fancy-indexing operation `rows[idx]` with an
integer index array whose entries are in range. -/
def fancyIndex (rows : List (List ℤ)) (idx : List ℕ) : List (List ℤ) :=
  idx.map fun i => rows.getD i []

/-- Line 116: `.astype('int32')` on a 2D integer array. -/
def astype32 (rows : List (List ℤ)) : List (List ℤ) :=
  rows.map (List.map wrap32)

/-- Lines 99-116 of `reorder`: everything after the truncation step.
`targets` is computed (line 104) before `x_out` (line 105), so a failing
target reshape aborts the whole call. -/
def reorderPost (x' : List ℤ) (batch_size model_seq_len : ℕ) :
    Option (List (List ℤ) × List (List ℤ)) :=
  match preTargets x' batch_size model_seq_len,
        preInputs x' batch_size model_seq_len with
  | some tg, some xo =>
      let out := permIndex (n_batches x'.length batch_size model_seq_len) batch_size
      some (astype32 (fancyIndex xo out), astype32 (fancyIndex tg out))
  | _, _ => none

/-- Function `reorder(x_in, batch_size, model_seq_len)`, lines 66-116.  A
`List ℤ` is always 1-dimensional, so the `ndim != 1` guard (line 91) never
fires.  When `batch_size*model_seq_len = 0`, line 94's `%` raises
`ZeroDivisionError`, modelled as `none`. -/
def reorder (x : List ℤ) (batch_size model_seq_len : ℕ) :
    Option (List (List ℤ) × List (List ℤ)) :=
  if batch_size * model_seq_len = 0 then none
  else reorderPost (truncStream x batch_size model_seq_len) batch_size model_seq_len

/-! ## The state-threading structure of the two batch loops

The compiled Theano steppers `f_train` (lines 297-300) and `f_eval`
(lines 289-291) are external collaborators: each consumes a batch (index
`i` below) together with explicit prior hidden state, and returns a cost
plus the final-time-step hidden state of every recurrent layer.  They are
modelled as an abstract argument `f : ℕ → σ → γ × σ`.  What belongs to the
repository — and is embedded literally — is how the Python loops route the
state values between the calls. -/

/-- Constant `BATCH_SIZE` (line 50). -/
def BATCH_SIZE : ℕ := 50

/-- Constant `REC_NUM_UNITS` (line 56). -/
def REC_NUM_UNITS : ℕ := 400

/-- An `np.zeros((r, c), dtype='float32')` matrix (floats carry exact
zeros, so a rational matrix is a faithful model of this value). -/
def npZeros (r c : ℕ) : List (List ℚ) :=
  List.replicate r (List.replicate c 0)

/-- Lines 335-336: `hidden_states = [np.zeros((BATCH_SIZE, REC_NUM_UNITS),
dtype='float32') for _ in range(len(features))]` with `nLayers =
len(features)`. -/
def zeroHiddenStates (nLayers : ℕ) : List (List (List ℚ)) :=
  List.replicate nLayers (npZeros BATCH_SIZE REC_NUM_UNITS)

/-- Lines 337-347, the inner batch loop of one epoch, returning the trace
of `(state passed to f_train, cost, state returned by f_train)` for each
call.  Line 344 binds `hid1, hid2` to the returned state, but the variable
`hidden_states` that is splatted into `f_train(...)` on line 345 is never
reassigned inside the loop, so every iteration passes the same
`hidden_states` value it started with. -/
def trainLoop {σ γ : Type} (f : ℕ → σ → γ × σ) :
    ℕ → ℕ → σ → List (σ × γ × σ)
  | 0, _, _ => []
  | n + 1, i, hidden_states =>
    let res := f i hidden_states
    (hidden_states, res.1, res.2) :: trainLoop f n (i + 1) hidden_states

/-- Lines 314-323, the batch loop of `calc_perplexity`, returning the same
kind of trace: here line 321 rebinds `hid1, hid2` to `f_eval`'s returned
state and the next iteration passes exactly those, so state is threaded. -/
def evalLoop {σ γ : Type} (f : ℕ → σ → γ × σ) :
    ℕ → ℕ → σ → List (σ × γ × σ)
  | 0, _, _ => []
  | n + 1, i, hid =>
    let res := f i hid
    (hid, res.1, res.2) :: evalLoop f n (i + 1) res.2

/-- Lines 331-347, the epoch loop: every epoch re-creates
`hidden_states` as fresh zeros (lines 334-336) before running the batch
loop, independent of anything a previous epoch computed. -/
def runEpochs {γ : Type} (f : ℕ → List (List (List ℚ)) → γ × List (List (List ℚ)))
    (nEpochs nBatchesTrain nLayers : ℕ) :
    List (List (List (List (List ℚ)) × γ × List (List (List ℚ)))) :=
  (List.range nEpochs).map fun _ =>
    trainLoop f nBatchesTrain 0 (zeroHiddenStates nLayers)

/-- In-range predicate for `astype('int32')`: every token of the stream
already fits in a signed 32-bit integer (true of vocabulary IDs). -/
def InRange32 (x : List ℤ) : Prop := ∀ t ∈ x, -2 ^ 31 ≤ t ∧ t < 2 ^ 31

instance (x : List ℤ) : Decidable (InRange32 x) := by
  unfold InRange32; infer_instance

/-- The value held by the variable `x_out` right after line 105, before the
fancy indexing of line 113: the naive contiguous chunk rows of the
truncated stream. -/
def inputChunks (x : List ℤ) (B S : ℕ) : List (List ℤ) :=
  chunkRows ((truncStream x B S).take (x_resize (truncStream x B S).length B S))
    (n_samples (truncStream x B S).length B S) S

/-- The value held by the variable `targets` right after line 104, before
the fancy indexing of line 114. -/
def targetChunks (x : List ℤ) (B S : ℕ) : List (List ℤ) :=
  chunkRows (((truncStream x B S).drop 1).take (x_resize (truncStream x B S).length B S))
    (n_samples (truncStream x B S).length B S) S

/-- Concatenation, in batch order `k = 0 .. nb - 1`, of the row at position
`j` of each sequential batch of a reordered `(nb*B, S)` array, i.e. of the
output rows `k*B + j`. -/
def laneConcat (rows : List (List ℤ)) (nb B j : ℕ) : List ℤ :=
  (List.range nb).flatMap fun k => rows.getD (k * B + j) []

/-! ## Supporting lemmas -/

theorem wrap32_eq_self {v : ℤ} (h1 : -2 ^ 31 ≤ v) (h2 : v < 2 ^ 31) :
    wrap32 v = v := by
  unfold wrap32
  have h32 : (2 : ℤ) ^ 32 = 2 ^ 31 + 2 ^ 31 := by norm_num
  rw [Int.emod_eq_of_lt (by linarith) (by linarith)]
  ring

theorem map_wrap32_eq_self {l : List ℤ}
    (h : ∀ t ∈ l, -2 ^ 31 ≤ t ∧ t < 2 ^ 31) : l.map wrap32 = l := by
  have : l.map wrap32 = l.map id :=
    List.map_congr_left fun a ha => wrap32_eq_self (h a ha).1 (h a ha).2
  simpa using this

theorem x_resize_le (len B S : ℕ) : x_resize len B S ≤ len := by
  unfold x_resize
  calc len / (B * S) * S * B = len / (B * S) * (B * S) := by ring
  _ ≤ len := Nat.div_mul_le_self len (B * S)

theorem n_samples_eq (len B S : ℕ) (hS : 0 < S) :
    n_samples len B S = len / (B * S) * B := by
  unfold n_samples x_resize
  rw [show len / (B * S) * S * B = len / (B * S) * B * S by ring,
    Nat.mul_div_cancel _ hS]

theorem n_samples_mul (len B S : ℕ) (hS : 0 < S) :
    n_samples len B S * S = x_resize len B S := by
  rw [n_samples_eq len B S hS]; unfold x_resize; ring

theorem n_batches_eq (len B S : ℕ) (hB : 0 < B) (hS : 0 < S) :
    n_batches len B S = len / (B * S) := by
  unfold n_batches
  rw [n_samples_eq len B S hS, Nat.mul_div_cancel _ hB]

theorem n_samples_eq_batches_mul (len B S : ℕ) (hB : 0 < B) (hS : 0 < S) :
    n_samples len B S = n_batches len B S * B := by
  rw [n_samples_eq len B S hS, n_batches_eq len B S hB hS]

theorem truncStream_sublist (x : List ℤ) (B S : ℕ) :
    (truncStream x B S).Sublist x := by
  unfold truncStream
  split
  · exact List.dropLast_sublist x
  · exact List.Sublist.refl x

/-- After the conditional truncation of lines 94-97, the remaining length is
never a positive multiple of `batch_size*model_seq_len` (when that block
size is at least 2). -/
theorem truncStream_not_dvd (x : List ℤ) (B S : ℕ) (hq : 2 ≤ B * S) :
    ¬(B * S) ∣ (truncStream x B S).length ∨ (truncStream x B S).length = 0 := by
  unfold truncStream
  by_cases h : x.length % (B * S) = 0
  · rw [if_pos h, List.length_dropLast]
    rcases Nat.lt_or_ge x.length 2 with h2 | h2
    · right; omega
    · left
      intro hdvd
      have h1 : (B * S) ∣ x.length := Nat.dvd_of_mod_eq_zero h
      have h3 : (B * S) ∣ (x.length - (x.length - 1)) := Nat.dvd_sub' h1 hdvd
      have h4 : x.length - (x.length - 1) = 1 := by omega
      rw [h4] at h3
      have := Nat.dvd_one.mp h3
      omega
  · rw [if_neg h]
    left
    intro hdvd
    exact h (Nat.dvd_iff_mod_eq_zero.mp hdvd)

theorem inputs_take_length (x' : List ℤ) (B S : ℕ) (hS : 0 < S) :
    (x'.take (x_resize x'.length B S)).length = n_samples x'.length B S * S := by
  rw [List.length_take, Nat.min_eq_left (x_resize_le x'.length B S),
    n_samples_mul x'.length B S hS]

theorem targets_take_length (x' : List ℤ) (B S : ℕ) (hS : 0 < S)
    (h : ¬(B * S) ∣ x'.length ∨ x'.length = 0) :
    ((x'.drop 1).take (x_resize x'.length B S)).length
      = n_samples x'.length B S * S := by
  have hle : x_resize x'.length B S + 1 ≤ x'.length ∨ x_resize x'.length B S = 0 := by
    rcases h with h | h
    · left
      have h1 := Nat.div_add_mod x'.length (B * S)
      have h2 : x'.length % (B * S) ≠ 0 := fun hc =>
        h (Nat.dvd_of_mod_eq_zero hc)
      have h3 : x_resize x'.length B S = B * S * (x'.length / (B * S)) := by
        unfold x_resize; ring
      omega
    · right
      unfold x_resize
      rw [h]
      simp
  rw [List.length_take, List.length_drop, n_samples_mul x'.length B S hS]
  omega

theorem preInputs_eq (x' : List ℤ) (B S : ℕ) (hS : 0 < S) :
    preInputs x' B S =
      some (chunkRows (x'.take (x_resize x'.length B S))
        (n_samples x'.length B S) S) := by
  unfold preInputs reshape
  rw [if_pos (inputs_take_length x' B S hS)]

theorem preTargets_eq (x' : List ℤ) (B S : ℕ) (hS : 0 < S)
    (h : ¬(B * S) ∣ x'.length ∨ x'.length = 0) :
    preTargets x' B S =
      some (chunkRows ((x'.drop 1).take (x_resize x'.length B S))
        (n_samples x'.length B S) S) := by
  unfold preTargets reshape
  rw [if_pos (targets_take_length x' B S hS h)]

theorem reorder_eq (x : List ℤ) (B S : ℕ) (hB : 0 < B) (hS : 0 < S)
    (hq : 2 ≤ B * S) :
    reorder x B S =
      some (astype32 (fancyIndex (inputChunks x B S)
              (permIndex (n_batches (truncStream x B S).length B S) B)),
            astype32 (fancyIndex (targetChunks x B S)
              (permIndex (n_batches (truncStream x B S).length B S) B))) := by
  unfold reorder
  rw [if_neg (by omega)]
  unfold reorderPost
  rw [preTargets_eq _ B S hS (truncStream_not_dvd x B S hq),
    preInputs_eq _ B S hS]
  rfl

theorem chunkRows_length (xs : List ℤ) (n s : ℕ) :
    (chunkRows xs n s).length = n := by
  simp [chunkRows]

theorem chunkRows_getD (xs : List ℤ) (n s i : ℕ) (hi : i < n) :
    (chunkRows xs n s).getD i [] = (xs.drop (i * s)).take s := by
  unfold chunkRows
  rw [List.getD_eq_getElem?_getD, List.getElem?_map, List.getElem?_range hi]
  rfl

theorem chunkRows_row_length (xs : List ℤ) (n s : ℕ) (hlen : n * s ≤ xs.length) :
    ∀ row ∈ chunkRows xs n s, row.length = s := by
  intro row hrow
  rw [chunkRows, List.mem_map] at hrow
  obtain ⟨i, hi, rfl⟩ := hrow
  rw [List.mem_range] at hi
  rw [List.length_take, List.length_drop]
  have h1 : (i + 1) * s ≤ n * s := Nat.mul_le_mul_right s hi
  have h2 : (i + 1) * s = i * s + s := by ring
  omega

theorem astype32_getD (l : List (List ℤ)) (m : ℕ) :
    (astype32 l).getD m [] = (l.getD m []).map wrap32 := by
  unfold astype32
  rw [List.getD_eq_getElem?_getD, List.getElem?_map, List.getD_eq_getElem?_getD]
  cases l[m]? <;> simp

theorem fancyIndex_length (rows : List (List ℤ)) (idx : List ℕ) :
    (fancyIndex rows idx).length = idx.length := by
  simp [fancyIndex]

theorem astype32_length (l : List (List ℤ)) : (astype32 l).length = l.length := by
  simp [astype32]

theorem fancyIndex_getD (rows : List (List ℤ)) (idx : List ℕ) (m : ℕ)
    (hm : m < idx.length) :
    (fancyIndex rows idx).getD m [] = rows.getD (idx.getD m 0) [] := by
  unfold fancyIndex
  have h1 : idx.getD m 0 = idx[m] := by
    rw [List.getD_eq_getElem?_getD, List.getElem?_eq_getElem hm]
    rfl
  rw [h1, List.getD_eq_getElem?_getD, List.getElem?_map,
    List.getElem?_eq_getElem hm]
  simp [List.getD_eq_getElem?_getD]

theorem take_drop_take (x' : List ℤ) (r m t : ℕ) (h : m + t ≤ r) :
    ((x'.take r).drop m).take t = (x'.drop m).take t := by
  rw [List.drop_take, List.take_take]
  congr 1
  omega

theorem flatMap_length_uniform {α β : Type} (l : List α) (f : α → List β)
    (B : ℕ) (h : ∀ a ∈ l, (f a).length = B) :
    (l.flatMap f).length = l.length * B := by
  induction l with
  | nil => simp
  | cons a t ih =>
    rw [List.flatMap_cons, List.length_append, h a (by simp),
      ih fun x hx => h x (by simp [hx]), List.length_cons]
    ring

theorem permIndex_length (nb B : ℕ) : (permIndex nb B).length = nb * B := by
  unfold permIndex
  rw [flatMap_length_uniform _ _ B (by intro a _; simp), List.length_range]

theorem kBj_lt (k j nb B : ℕ) (hk : k < nb) (hj : j < B) :
    k * B + j < nb * B :=
  calc k * B + j < k * B + B := by omega
  _ = (k + 1) * B := by ring
  _ ≤ nb * B := Nat.mul_le_mul_right B hk

theorem flatMap_range'_getD (f : ℕ → List ℕ) (B : ℕ)
    (hB : ∀ i, (f i).length = B) :
    ∀ (n s k j : ℕ), k < n → j < B →
      ((List.range' s n).flatMap f).getD (k * B + j) 0 = (f (s + k)).getD j 0
  | 0, _, _, _, hk, _ => absurd hk (Nat.not_lt_zero _)
  | n + 1, s, k, j, hk, hj => by
    rw [List.range'_succ, List.flatMap_cons]
    cases k with
    | zero =>
      rw [Nat.zero_mul, Nat.zero_add]
      rw [List.getD_eq_getElem?_getD, List.getElem?_append_left (by rw [hB]; exact hj),
        ← List.getD_eq_getElem?_getD]
      rfl
    | succ k' =>
      have hlen : (f s).length ≤ (k' + 1) * B + j := by
        rw [hB]
        have : 1 * B ≤ (k' + 1) * B := Nat.mul_le_mul_right B (by omega)
        omega
      rw [List.getD_eq_getElem?_getD, List.getElem?_append_right hlen,
        ← List.getD_eq_getElem?_getD, hB]
      have harith : (k' + 1) * B + j - B = k' * B + j := by
        have : (k' + 1) * B = k' * B + B := by ring
        omega
      rw [harith, flatMap_range'_getD f B hB n (s + 1) k' j (by omega) hj]
      have hs : s + 1 + k' = s + (k' + 1) := by omega
      rw [hs]

theorem permIndex_getD (nb B k j : ℕ) (hk : k < nb) (hj : j < B) :
    (permIndex nb B).getD (k * B + j) 0 = j * nb + k := by
  unfold permIndex
  rw [List.range_eq_range',
    flatMap_range'_getD _ B (fun i => by simp) nb 0 k j hk hj, Nat.zero_add,
    List.getD_eq_getElem?_getD, List.getElem?_map, List.getElem?_range hj]
  rfl

theorem mem_permIndex_iff (nb B m : ℕ) : m ∈ permIndex nb B ↔ m < nb * B := by
  unfold permIndex
  constructor
  · intro hm
    rw [List.mem_flatMap] at hm
    obtain ⟨i, hi, hmem⟩ := hm
    rw [List.mem_range] at hi
    rw [List.mem_map] at hmem
    obtain ⟨j, hj, rfl⟩ := hmem
    rw [List.mem_range] at hj
    calc j * nb + i < j * nb + nb := by omega
    _ = (j + 1) * nb := by ring
    _ ≤ B * nb := Nat.mul_le_mul_right nb hj
    _ = nb * B := Nat.mul_comm B nb
  · intro hm
    have hnb : 0 < nb := by
      rcases Nat.eq_zero_or_pos nb with h | h
      · rw [h] at hm; omega
      · exact h
    rw [List.mem_flatMap]
    refine ⟨m % nb, List.mem_range.mpr (Nat.mod_lt m hnb), ?_⟩
    rw [List.mem_map]
    refine ⟨m / nb, List.mem_range.mpr ?_, ?_⟩
    · rw [Nat.div_lt_iff_lt_mul hnb]
      calc m < nb * B := hm
      _ = B * nb := Nat.mul_comm nb B
    · have h1 := Nat.div_add_mod m nb
      have h2 : nb * (m / nb) = m / nb * nb := Nat.mul_comm _ _
      omega

theorem permIndex_nodup (nb B : ℕ) : (permIndex nb B).Nodup := by
  unfold permIndex
  rw [List.nodup_flatMap]
  constructor
  · intro i hi
    rw [List.mem_range] at hi
    refine List.Nodup.map ?_ (List.nodup_range B)
    intro j1 j2 h
    simp only at h
    have h1 : j1 * nb = j2 * nb := by omega
    exact Nat.eq_of_mul_eq_mul_right (by omega) h1
  · rw [List.pairwise_iff_getElem]
    intro a b ha hb hab
    rw [List.length_range] at ha hb
    intro m hm1 hm2
    rw [List.getElem_range] at hm1 hm2
    simp only [List.mem_map, List.mem_range] at hm1 hm2
    obtain ⟨j1, hj1, h1⟩ := hm1
    obtain ⟨j2, hj2, h2⟩ := hm2
    have heq : j1 * nb + a = j2 * nb + b := by omega
    rcases Nat.lt_trichotomy j1 j2 with h | h | h
    · have h3 : (j1 + 1) * nb ≤ j2 * nb := Nat.mul_le_mul_right nb h
      have h4 : (j1 + 1) * nb = j1 * nb + nb := by ring
      omega
    · subst h
      omega
    · have h3 : (j2 + 1) * nb ≤ j1 * nb := Nat.mul_le_mul_right nb h
      have h4 : (j2 + 1) * nb = j2 * nb + nb := by ring
      omega

theorem permIndex_perm_range (nb B : ℕ) :
    (permIndex nb B).Perm (List.range (nb * B)) := by
  rw [List.perm_ext_iff_of_nodup (permIndex_nodup nb B) (List.nodup_range _)]
  intro m
  rw [List.mem_range, mem_permIndex_iff]

theorem map_getD_range {α : Type} (l : List α) (d : α) :
    (List.range l.length).map (fun i => l.getD i d) = l := by
  induction l with
  | nil => simp
  | cons a t ih =>
    rw [List.length_cons, List.range_succ_eq_map, List.map_cons, List.map_map]
    have h1 : ((fun i => (a :: t).getD i d) ∘ Nat.succ) = fun i => t.getD i d := by
      funext i
      simp [Function.comp]
    rw [h1, ih]
    rfl

theorem fancyIndex_perm (rows : List (List ℤ)) (nb B : ℕ)
    (hlen : rows.length = nb * B) :
    (fancyIndex rows (permIndex nb B)).Perm rows := by
  unfold fancyIndex
  have h1 : ((permIndex nb B).map fun i => rows.getD i []).Perm
      ((List.range (nb * B)).map fun i => rows.getD i []) :=
    (permIndex_perm_range nb B).map _
  rw [← hlen] at h1
  rw [map_getD_range rows []] at h1
  exact h1

theorem flatMap_congr_mem {α β : Type} {l : List α} {f g : α → List β}
    (h : ∀ a ∈ l, f a = g a) : l.flatMap f = l.flatMap g := by
  induction l with
  | nil => rfl
  | cons a t ih =>
    rw [List.flatMap_cons, List.flatMap_cons, h a (by simp),
      ih fun x hx => h x (by simp [hx])]

/-- Concatenating `n` consecutive `S`-sized slices of `xs`, starting at
slice index `a`, gives one `n*S`-sized slice. -/
theorem flatMap_chunks (xs : List ℤ) (S : ℕ) :
    ∀ (n a : ℕ), ((List.range n).flatMap fun k => (xs.drop ((a + k) * S)).take S)
      = (xs.drop (a * S)).take (n * S)
  | 0, a => by simp
  | n + 1, a => by
    have hstep : ((List.range (n + 1)).flatMap fun k => (xs.drop ((a + k) * S)).take S)
        = (xs.drop ((a + 0) * S)).take S ++
          ((List.range n).flatMap fun k => (xs.drop ((a + 1 + k) * S)).take S) := by
      rw [List.range_succ_eq_map, List.flatMap_cons, List.flatMap_map]
      congr 1
      apply flatMap_congr_mem
      intro k _
      show (xs.drop ((a + Nat.succ k) * S)).take S = (xs.drop ((a + 1 + k) * S)).take S
      have h : a + Nat.succ k = a + 1 + k := by omega
      rw [h]
    rw [hstep, flatMap_chunks xs S n (a + 1), Nat.add_zero]
    have h2 : (n + 1) * S = S + n * S := by ring
    rw [h2, List.take_add]
    congr 1
    rw [List.drop_drop]
    congr 2
    ring

theorem inRange_of_sublist {x x' : List ℤ} (hr : InRange32 x)
    (hsub : x'.Sublist x) : InRange32 x' :=
  fun t ht => hr t (hsub.subset ht)

theorem take_drop_sublist (x' : List ℤ) (m t : ℕ) :
    ((x'.drop m).take t).Sublist x' :=
  (List.take_sublist t (x'.drop m)).trans (List.drop_sublist m x')

theorem astype_fancy_getD (rows : List (List ℤ)) (nb B k j : ℕ)
    (hk : k < nb) (hj : j < B) :
    (astype32 (fancyIndex rows (permIndex nb B))).getD (k * B + j) []
      = (rows.getD (j * nb + k) []).map wrap32 := by
  rw [astype32_getD,
    fancyIndex_getD _ _ _ (by rw [permIndex_length]; exact kBj_lt k j nb B hk hj),
    permIndex_getD nb B k j hk hj]

/-- The output row `k*B + j` of a successful `reorder` call is the naive
contiguous chunk row `j*nb + k` of the truncated stream, written directly
as a slice of the truncated stream (inputs), resp. the same slice shifted
one position right (targets). -/
theorem reorder_getD_row (x : List ℤ) (B S k j : ℕ) (hB : 0 < B) (hS : 0 < S)
    (hq : 2 ≤ B * S) (hr : InRange32 x)
    (hk : k < n_batches (truncStream x B S).length B S) (hj : j < B) :
    ∀ xo tg, reorder x B S = some (xo, tg) →
      xo.getD (k * B + j) []
        = ((truncStream x B S).drop
            ((j * n_batches (truncStream x B S).length B S + k) * S)).take S ∧
      tg.getD (k * B + j) []
        = ((truncStream x B S).drop
            ((j * n_batches (truncStream x B S).length B S + k) * S + 1)).take S := by
  intro xo tg hre
  rw [reorder_eq x B S hB hS hq] at hre
  simp only [Option.some.injEq, Prod.mk.injEq] at hre
  obtain ⟨hxo, htg⟩ := hre
  subst hxo
  subst htg
  set x' := truncStream x B S with hx'
  set nb := n_batches x'.length B S with hnb
  set n := n_samples x'.length B S with hn
  set r := x_resize x'.length B S with hrr
  have hm : j * nb + k < n := by
    rw [hn, n_samples_eq_batches_mul x'.length B S hB hS, ← hnb, Nat.mul_comm nb B]
    exact kBj_lt j k B nb hj hk
  have hmr : (j * nb + k) * S + S ≤ r := by
    have h1 : (j * nb + k + 1) * S ≤ n * S := Nat.mul_le_mul_right S hm
    have h2 : (j * nb + k + 1) * S = (j * nb + k) * S + S := by ring
    rw [hrr, ← n_samples_mul x'.length B S hS, ← hn]
    omega
  have hx'sub : x'.Sublist x := truncStream_sublist x B S
  constructor
  · rw [astype_fancy_getD _ nb B k j hk hj]
    unfold inputChunks
    rw [← hx', ← hrr, ← hn, chunkRows_getD _ _ _ _ hm,
      take_drop_take x' r ((j * nb + k) * S) S (by omega)]
    exact map_wrap32_eq_self
      (inRange_of_sublist hr ((take_drop_sublist x' _ _).trans hx'sub))
  · rw [astype_fancy_getD _ nb B k j hk hj]
    unfold targetChunks
    rw [← hx', ← hrr, ← hn, chunkRows_getD _ _ _ _ hm,
      take_drop_take (x'.drop 1) r ((j * nb + k) * S) S (by omega),
      List.drop_drop]
    have h1 : (j * nb + k) * S + 1 = 1 + (j * nb + k) * S := by omega
    rw [← h1]
    exact map_wrap32_eq_self
      (inRange_of_sublist hr ((take_drop_sublist x' _ _).trans hx'sub))

theorem astype32_eq_self {l : List (List ℤ)}
    (h : ∀ row ∈ l, ∀ v ∈ row, -2 ^ 31 ≤ v ∧ v < 2 ^ 31) : astype32 l = l := by
  unfold astype32
  have h1 : l.map (List.map wrap32) = l.map id :=
    List.map_congr_left fun r hr => map_wrap32_eq_self (h r hr)
  simpa using h1

theorem chunkRows_mem_inRange {x : List ℤ} (hr : InRange32 x) {xs : List ℤ}
    (hsub : xs.Sublist x) (n s : ℕ) :
    ∀ row ∈ chunkRows xs n s, ∀ v ∈ row, -2 ^ 31 ≤ v ∧ v < 2 ^ 31 := by
  intro row hrow v hv
  rw [chunkRows, List.mem_map] at hrow
  obtain ⟨i, _, rfl⟩ := hrow
  exact hr v (hsub.subset ((take_drop_sublist xs _ _).subset hv))

/-! ## Claim theorems -/

/-- C5: `reorder` drops exactly the last element of the stream if and only
if the stream's length `L` satisfies `L mod (B*S) == 0`, and this happens
before the usable length and the chunking are computed: `reorder` is the
composition of the line-94-97 truncation with `reorderPost`, the part that
computes `x_resize`, `n_samples`, `n_batches` and the chunked arrays. -/
theorem truncation_rule (x : List ℤ) (B S : ℕ) (hB : 0 < B) (hS : 0 < S) :
    reorder x B S = reorderPost (truncStream x B S) B S ∧
      (truncStream x B S = x.dropLast ↔ x.length % (B * S) = 0) := by
  constructor
  · unfold reorder
    rw [if_neg (Nat.mul_ne_zero (by omega) (by omega))]
  · unfold truncStream
    by_cases h : x.length % (B * S) = 0
    · rw [if_pos h]
      simp [h]
    · rw [if_neg h]
      constructor
      · intro heq
        have hlen := congrArg List.length heq
        rw [List.length_dropLast] at hlen
        have hx0 : x.length = 0 := by omega
        rw [hx0] at h
        exact absurd (Nat.zero_mod _) h
      · intro hc
        exact absurd hc h

theorem truncation_rule_witness :
    reorder [1, 2, 3] 1 2 = reorderPost (truncStream [1, 2, 3] 1 2) 1 2 ∧
      (truncStream [1, 2, 3] 1 2 = ([1, 2, 3] : List ℤ).dropLast ↔
        ([1, 2, 3] : List ℤ).length % (1 * 2) = 0) :=
  truncation_rule [1, 2, 3] 1 2 (by decide) (by decide)

/-- C9: the Sequencer is deterministic.  The embedding of `reorder` is a
pure function of `(x, B, S)` — the source of `reorder` reads no random
state and no globals besides its arguments — so two calls on the same
input produce identical output pairs. -/
theorem reorder_deterministic (x : List ℤ) (B S : ℕ) :
    reorder x B S = reorder x B S := rfl

/-- C4 counterexample: a 5-token stream with `B = 2`, `S = 3` (so
`L = 5 < 6 = B*S`) makes `reorder` return *normally* with a pair of empty
arrays — no exception of any kind is raised (`none` would model a raised
exception, and the source defines no `InsufficientDataError` at all). -/
theorem insufficient_data_counterexample :
    reorder [1, 2, 3, 4, 5] 2 3 = some ([], []) := by decide

/-- C4 amended: for every stream with `L < B*S`, `reorder` returns
successfully with a silently empty pair of arrays (zero rows); no
`InsufficientDataError` (or any error) is signalled. -/
theorem reorder_short_stream_empty (x : List ℤ) (B S : ℕ) (hB : 0 < B)
    (hS : 0 < S) (hL : x.length < B * S) : reorder x B S = some ([], []) := by
  have hq : B * S ≠ 0 := Nat.mul_ne_zero (by omega) (by omega)
  have hlen : (truncStream x B S).length < B * S := by
    have hle : (truncStream x B S).length ≤ x.length :=
      (truncStream_sublist x B S).length_le
    omega
  have hdiv : (truncStream x B S).length / (B * S) = 0 := Nat.div_eq_of_lt hlen
  have hr : x_resize (truncStream x B S).length B S = 0 := by
    unfold x_resize
    rw [hdiv]
    ring
  have hn : n_samples (truncStream x B S).length B S = 0 := by
    unfold n_samples
    rw [hr]
    exact Nat.zero_div _
  have hnb : n_batches (truncStream x B S).length B S = 0 := by
    unfold n_batches
    rw [hn]
    exact Nat.zero_div _
  unfold reorder
  rw [if_neg hq]
  unfold reorderPost preTargets preInputs reshape
  rw [hr, hn, hnb]
  simp [chunkRows, permIndex, fancyIndex, astype32]

theorem reorder_short_stream_empty_witness :
    reorder [1, 2] 3 1 = some ([], []) :=
  reorder_short_stream_empty [1, 2] 3 1 (by decide) (by decide) (by decide)

/-- C2 counterexample: the 12-token stream with `B = 2`, `S = 3` has
`L = 12 ≥ 6 = B*S`, yet the arrays returned by `reorder` have 2 rows, not
`floor(L/(B*S))*B = 4`: line 97 truncates the stream to 11 tokens *before*
the shape computation, so the row count comes from `floor(11/6)*2 = 2`. -/
theorem shape_claim_counterexample :
    reorder [1, 2, 3, 4, 5, 6, 7, 8, 9, 10, 11, 12] 2 3 =
        some ([[1, 2, 3], [4, 5, 6]], [[2, 3, 4], [5, 6, 7]]) ∧
      ([[1, 2, 3], [4, 5, 6]] : List (List ℤ)).length = 2 ∧
      (2 : ℕ) ≠ 12 / (2 * 3) * 2 := by
  refine ⟨by decide, by decide, by decide⟩

/-- C2 amended: for `0 < B`, `0 < S`, `B*S ≥ 2`, `reorder` succeeds and
both arrays have shape exactly `(N, S)` where `N = floor(L'/(B*S))*B` and
`L'` is the length of the *truncated* stream (`L-1` when `B*S` divides
`L`, else `L`); moreover `N mod B == 0`. -/
theorem reorder_shapes (x : List ℤ) (B S : ℕ) (hB : 0 < B) (hS : 0 < S)
    (hq : 2 ≤ B * S) :
    ∃ xo tg, reorder x B S = some (xo, tg) ∧
      xo.length = (truncStream x B S).length / (B * S) * B ∧
      tg.length = (truncStream x B S).length / (B * S) * B ∧
      (∀ row ∈ xo, row.length = S) ∧
      (∀ row ∈ tg, row.length = S) ∧
      B ∣ xo.length := by
  refine ⟨_, _, reorder_eq x B S hB hS hq, ?_, ?_, ?_, ?_, ?_⟩
  · rw [astype32_length, fancyIndex_length, permIndex_length,
      n_batches_eq _ B S hB hS]
  · rw [astype32_length, fancyIndex_length, permIndex_length,
      n_batches_eq _ B S hB hS]
  · intro row hrow
    rw [astype32, List.mem_map] at hrow
    obtain ⟨row0, hrow0, rfl⟩ := hrow
    rw [List.length_map]
    rw [fancyIndex, List.mem_map] at hrow0
    obtain ⟨i, hi, rfl⟩ := hrow0
    rw [mem_permIndex_iff] at hi
    have hin : i < n_samples (truncStream x B S).length B S := by
      rw [n_samples_eq_batches_mul _ B S hB hS]
      have := Nat.mul_comm (n_batches (truncStream x B S).length B S) B
      omega
    have hmem : (inputChunks x B S).getD i [] ∈ inputChunks x B S := by
      have hlen : i < (inputChunks x B S).length := by
        rw [inputChunks, chunkRows_length]
        exact hin
      rw [List.getD_eq_getElem?_getD, List.getElem?_eq_getElem hlen]
      exact List.getElem_mem hlen
    refine chunkRows_row_length _ _ _ ?_ _ hmem
    rw [inputs_take_length _ B S hS]
  · intro row hrow
    rw [astype32, List.mem_map] at hrow
    obtain ⟨row0, hrow0, rfl⟩ := hrow
    rw [List.length_map]
    rw [fancyIndex, List.mem_map] at hrow0
    obtain ⟨i, hi, rfl⟩ := hrow0
    rw [mem_permIndex_iff] at hi
    have hin : i < n_samples (truncStream x B S).length B S := by
      rw [n_samples_eq_batches_mul _ B S hB hS]
      have := Nat.mul_comm (n_batches (truncStream x B S).length B S) B
      omega
    have hmem : (targetChunks x B S).getD i [] ∈ targetChunks x B S := by
      have hlen : i < (targetChunks x B S).length := by
        rw [targetChunks, chunkRows_length]
        exact hin
      rw [List.getD_eq_getElem?_getD, List.getElem?_eq_getElem hlen]
      exact List.getElem_mem hlen
    refine chunkRows_row_length _ _ _ ?_ _ hmem
    rw [targets_take_length _ B S hS (truncStream_not_dvd x B S hq)]
  · rw [astype32_length, fancyIndex_length, permIndex_length]
    exact Dvd.intro _ (Nat.mul_comm _ _)

/-- C6: before the row permutation is applied, row `i` of the inputs is
`stream'[i*S : i*S+S]` and row `i` of the targets is
`stream'[i*S+1 : i*S+1+S]`, where `stream'` is the (possibly truncated)
stream — so the target array is the input array shifted by one position in
original corpus order. -/
theorem pre_permutation_chunking (x : List ℤ) (B S : ℕ) (hB : 0 < B)
    (hS : 0 < S) (hq : 2 ≤ B * S) :
    ∃ ins tgs,
      preInputs (truncStream x B S) B S = some ins ∧
      preTargets (truncStream x B S) B S = some tgs ∧
      ∀ i < n_samples (truncStream x B S).length B S,
        ins.getD i [] = ((truncStream x B S).drop (i * S)).take S ∧
        tgs.getD i [] = ((truncStream x B S).drop (i * S + 1)).take S := by
  refine ⟨_, _, preInputs_eq _ B S hS,
    preTargets_eq _ B S hS (truncStream_not_dvd x B S hq), ?_⟩
  intro i hi
  have hle : i * S + S ≤ x_resize (truncStream x B S).length B S := by
    have h1 : (i + 1) * S ≤ n_samples (truncStream x B S).length B S * S :=
      Nat.mul_le_mul_right S hi
    rw [n_samples_mul _ B S hS] at h1
    have h2 : (i + 1) * S = i * S + S := by ring
    omega
  constructor
  · rw [chunkRows_getD _ _ _ _ hi]
    exact take_drop_take _ _ _ _ hle
  · rw [chunkRows_getD _ _ _ _ hi,
      take_drop_take ((truncStream x B S).drop 1) _ (i * S) S hle,
      List.drop_drop]
    have h3 : i * S + 1 = 1 + i * S := by omega
    rw [h3]

theorem pre_permutation_chunking_witness :
    ∃ ins tgs,
      preInputs (truncStream [1, 2, 3, 4, 5, 6, 7, 8, 9, 10, 11, 12, 13] 2 3) 2 3
          = some ins ∧
      preTargets (truncStream [1, 2, 3, 4, 5, 6, 7, 8, 9, 10, 11, 12, 13] 2 3) 2 3
          = some tgs ∧
      ∀ i < n_samples
          (truncStream [1, 2, 3, 4, 5, 6, 7, 8, 9, 10, 11, 12, 13] 2 3).length 2 3,
        ins.getD i []
            = ((truncStream [1, 2, 3, 4, 5, 6, 7, 8, 9, 10, 11, 12, 13] 2 3).drop
                (i * 3)).take 3 ∧
        tgs.getD i []
            = ((truncStream [1, 2, 3, 4, 5, 6, 7, 8, 9, 10, 11, 12, 13] 2 3).drop
                (i * 3 + 1)).take 3 :=
  pre_permutation_chunking [1, 2, 3, 4, 5, 6, 7, 8, 9, 10, 11, 12, 13] 2 3
    (by decide) (by decide) (by decide)

/-- C7: the row permutation applied to both arrays is the index array of
length `N = n_samples` with `perm[k*B + j] = j*n_batches + k`, so output
row `k*B + j` of a successful `reorder` call is pre-permutation chunk row
`j*n_batches + k` (of the inputs, resp. targets, chunk array). -/
theorem permutation_formula (x : List ℤ) (B S k j : ℕ) (hB : 0 < B)
    (hS : 0 < S) (hq : 2 ≤ B * S) (hr : InRange32 x)
    (hk : k < n_batches (truncStream x B S).length B S) (hj : j < B) :
    (permIndex (n_batches (truncStream x B S).length B S) B).length
        = n_samples (truncStream x B S).length B S ∧
      (permIndex (n_batches (truncStream x B S).length B S) B).getD (k * B + j) 0
        = j * n_batches (truncStream x B S).length B S + k ∧
      ∀ xo tg, reorder x B S = some (xo, tg) →
        xo.getD (k * B + j) []
            = (inputChunks x B S).getD
                (j * n_batches (truncStream x B S).length B S + k) [] ∧
        tg.getD (k * B + j) []
            = (targetChunks x B S).getD
                (j * n_batches (truncStream x B S).length B S + k) [] := by
  refine ⟨by rw [permIndex_length, n_samples_eq_batches_mul _ B S hB hS],
    permIndex_getD _ B k j hk hj, ?_⟩
  intro xo tg hre
  obtain ⟨h1, h2⟩ := reorder_getD_row x B S k j hB hS hq hr hk hj xo tg hre
  set nb := n_batches (truncStream x B S).length B S with hnb
  have hm : j * nb + k < n_samples (truncStream x B S).length B S := by
    rw [n_samples_eq_batches_mul _ B S hB hS, ← hnb, Nat.mul_comm nb B]
    exact kBj_lt j k B nb hj hk
  have hmr : (j * nb + k) * S + S ≤ x_resize (truncStream x B S).length B S := by
    have ha : (j * nb + k + 1) * S
        ≤ n_samples (truncStream x B S).length B S * S := Nat.mul_le_mul_right S hm
    rw [n_samples_mul _ B S hS] at ha
    have hb : (j * nb + k + 1) * S = (j * nb + k) * S + S := by ring
    omega
  constructor
  · rw [h1]
    unfold inputChunks
    rw [chunkRows_getD _ _ _ _ hm, take_drop_take _ _ _ _ hmr]
  · rw [h2]
    unfold targetChunks
    rw [chunkRows_getD _ _ _ _ hm,
      take_drop_take ((truncStream x B S).drop 1) _ _ _ hmr,
      List.drop_drop]
    have h3 : (j * nb + k) * S + 1 = 1 + (j * nb + k) * S := by omega
    rw [h3]

theorem permutation_formula_witness :
    (permIndex
        (n_batches (truncStream [0, 1, 2, 3, 4, 5, 6, 7, 8, 9, 10, 11, 12, 13] 3 2).length 3 2)
        3).length
        = n_samples (truncStream [0, 1, 2, 3, 4, 5, 6, 7, 8, 9, 10, 11, 12, 13] 3 2).length 3 2 ∧
      (permIndex
        (n_batches (truncStream [0, 1, 2, 3, 4, 5, 6, 7, 8, 9, 10, 11, 12, 13] 3 2).length 3 2)
        3).getD (1 * 3 + 2) 0
        = 2 * n_batches (truncStream [0, 1, 2, 3, 4, 5, 6, 7, 8, 9, 10, 11, 12, 13] 3 2).length 3 2
            + 1 ∧
      ∀ xo tg, reorder [0, 1, 2, 3, 4, 5, 6, 7, 8, 9, 10, 11, 12, 13] 3 2 = some (xo, tg) →
        xo.getD (1 * 3 + 2) []
            = (inputChunks [0, 1, 2, 3, 4, 5, 6, 7, 8, 9, 10, 11, 12, 13] 3 2).getD
                (2 * n_batches (truncStream [0, 1, 2, 3, 4, 5, 6, 7, 8, 9, 10, 11, 12, 13] 3 2).length 3 2
                  + 1) [] ∧
        tg.getD (1 * 3 + 2) []
            = (targetChunks [0, 1, 2, 3, 4, 5, 6, 7, 8, 9, 10, 11, 12, 13] 3 2).getD
                (2 * n_batches (truncStream [0, 1, 2, 3, 4, 5, 6, 7, 8, 9, 10, 11, 12, 13] 3 2).length 3 2
                  + 1) [] :=
  permutation_formula [0, 1, 2, 3, 4, 5, 6, 7, 8, 9, 10, 11, 12, 13] 3 2 1 2
    (by decide) (by decide) (by decide) (by decide) (by decide) (by decide)

/-- C1: row-lane continuity.  For every stream with `L ≥ B*S` (tokens in
int32 range, `B*S ≥ 2` so that the reshape of line 104 cannot raise),
`reorder` succeeds, and for every lane `j < B` the concatenation, in batch
order `k = 0..n_batches-1`, of output rows `k*B + j` equals the contiguous
slice of the (possibly truncated) token stream that starts at position
`j*n_batches*S` and has length `n_batches*S`; the target lanes are the
same contiguous runs shifted one position right. -/
theorem row_lane_continuity (x : List ℤ) (B S : ℕ) (hB : 0 < B) (hS : 0 < S)
    (hq : 2 ≤ B * S) (hL : B * S ≤ x.length) (hr : InRange32 x) :
    ∃ xo tg, reorder x B S = some (xo, tg) ∧
      ∀ j < B,
        laneConcat xo (n_batches (truncStream x B S).length B S) B j
            = ((truncStream x B S).drop
                (j * n_batches (truncStream x B S).length B S * S)).take
                (n_batches (truncStream x B S).length B S * S) ∧
        laneConcat tg (n_batches (truncStream x B S).length B S) B j
            = ((truncStream x B S).drop
                (j * n_batches (truncStream x B S).length B S * S + 1)).take
                (n_batches (truncStream x B S).length B S * S) := by
  refine ⟨_, _, reorder_eq x B S hB hS hq, ?_⟩
  intro j hj
  set x' := truncStream x B S with hx'
  set nb := n_batches x'.length B S with hnb
  have hrow := fun (k : ℕ) (hk : k < nb) =>
    reorder_getD_row x B S k j hB hS hq hr hk hj _ _ (reorder_eq x B S hB hS hq)
  constructor
  · unfold laneConcat
    rw [flatMap_congr_mem fun k hk => (hrow k (List.mem_range.mp hk)).1]
    have h1 : (List.range nb).flatMap
          (fun k => (x'.drop ((j * nb + k) * S)).take S)
        = (x'.drop (j * nb * S)).take (nb * S) := flatMap_chunks x' S nb (j * nb)
    exact h1
  · unfold laneConcat
    rw [flatMap_congr_mem fun k hk => (hrow k (List.mem_range.mp hk)).2]
    have hsh : ∀ k ∈ List.range nb,
        (x'.drop ((j * nb + k) * S + 1)).take S
          = ((x'.drop 1).drop ((j * nb + k) * S)).take S := by
      intro k _
      rw [List.drop_drop]
      congr 2
      omega
    rw [flatMap_congr_mem hsh,
      flatMap_chunks (x'.drop 1) S nb (j * nb), List.drop_drop]
    congr 2
    omega

theorem row_lane_continuity_witness :
    ∃ xo tg, reorder [0, 1, 2, 3, 4, 5, 6, 7, 8, 9, 10, 11, 12] 2 3 = some (xo, tg) ∧
      ∀ j < 2,
        laneConcat xo
            (n_batches (truncStream [0, 1, 2, 3, 4, 5, 6, 7, 8, 9, 10, 11, 12] 2 3).length 2 3) 2 j
            = ((truncStream [0, 1, 2, 3, 4, 5, 6, 7, 8, 9, 10, 11, 12] 2 3).drop
                (j * n_batches (truncStream [0, 1, 2, 3, 4, 5, 6, 7, 8, 9, 10, 11, 12] 2 3).length 2 3 * 3)).take
                (n_batches (truncStream [0, 1, 2, 3, 4, 5, 6, 7, 8, 9, 10, 11, 12] 2 3).length 2 3 * 3) ∧
        laneConcat tg
            (n_batches (truncStream [0, 1, 2, 3, 4, 5, 6, 7, 8, 9, 10, 11, 12] 2 3).length 2 3) 2 j
            = ((truncStream [0, 1, 2, 3, 4, 5, 6, 7, 8, 9, 10, 11, 12] 2 3).drop
                (j * n_batches (truncStream [0, 1, 2, 3, 4, 5, 6, 7, 8, 9, 10, 11, 12] 2 3).length 2 3 * 3 + 1)).take
                (n_batches (truncStream [0, 1, 2, 3, 4, 5, 6, 7, 8, 9, 10, 11, 12] 2 3).length 2 3 * 3) :=
  row_lane_continuity [0, 1, 2, 3, 4, 5, 6, 7, 8, 9, 10, 11, 12] 2 3
    (by decide) (by decide) (by decide) (by decide) (by decide)

/-- C10: the index array built by the reordering loop (lines 107-111) is a
permutation of `[0, n_samples)` — and consequently the permuted inputs and
targets of a successful `reorder` call are exact rearrangements of the
naive contiguous chunk rows: no chunk row is dropped and none is
duplicated. -/
theorem perm_is_bijection (x : List ℤ) (B S : ℕ) (hB : 0 < B) (hS : 0 < S)
    (hq : 2 ≤ B * S) (hr : InRange32 x) :
    (permIndex (n_batches (truncStream x B S).length B S) B).Perm
        (List.range (n_samples (truncStream x B S).length B S)) ∧
      ∀ xo tg, reorder x B S = some (xo, tg) →
        xo.Perm (inputChunks x B S) ∧ tg.Perm (targetChunks x B S) := by
  set x' := truncStream x B S with hx'
  set nb := n_batches x'.length B S with hnb
  have hlen : n_samples x'.length B S = nb * B :=
    n_samples_eq_batches_mul x'.length B S hB hS
  constructor
  · rw [hlen]
    exact permIndex_perm_range nb B
  · intro xo tg hre
    rw [reorder_eq x B S hB hS hq] at hre
    simp only [Option.some.injEq, Prod.mk.injEq] at hre
    obtain ⟨hxo, htg⟩ := hre
    subst hxo
    subst htg
    constructor
    · have hself : astype32 (inputChunks x B S) = inputChunks x B S :=
        astype32_eq_self (chunkRows_mem_inRange hr
          ((List.take_sublist _ _).trans (truncStream_sublist x B S)) _ _)
      have hp : (fancyIndex (inputChunks x B S) (permIndex nb B)).Perm
          (inputChunks x B S) := by
        apply fancyIndex_perm
        rw [inputChunks, chunkRows_length, ← hx', hlen]
      have hmap : (astype32 (fancyIndex (inputChunks x B S) (permIndex nb B))).Perm
          (astype32 (inputChunks x B S)) := hp.map (List.map wrap32)
      rw [hself] at hmap
      exact hmap
    · have hself : astype32 (targetChunks x B S) = targetChunks x B S :=
        astype32_eq_self (chunkRows_mem_inRange hr
          (((List.take_sublist _ _).trans (List.drop_sublist _ _)).trans
            (truncStream_sublist x B S)) _ _)
      have hp : (fancyIndex (targetChunks x B S) (permIndex nb B)).Perm
          (targetChunks x B S) := by
        apply fancyIndex_perm
        rw [targetChunks, chunkRows_length, ← hx', hlen]
      have hmap : (astype32 (fancyIndex (targetChunks x B S) (permIndex nb B))).Perm
          (astype32 (targetChunks x B S)) := hp.map (List.map wrap32)
      rw [hself] at hmap
      exact hmap

theorem perm_is_bijection_witness :
    (permIndex (n_batches (truncStream [0, 1, 2, 3, 4, 5, 6, 7, 8, 9, 10, 11] 2 3).length 2 3) 2).Perm
        (List.range (n_samples (truncStream [0, 1, 2, 3, 4, 5, 6, 7, 8, 9, 10, 11] 2 3).length 2 3)) ∧
      ∀ xo tg, reorder [0, 1, 2, 3, 4, 5, 6, 7, 8, 9, 10, 11] 2 3 = some (xo, tg) →
        xo.Perm (inputChunks [0, 1, 2, 3, 4, 5, 6, 7, 8, 9, 10, 11] 2 3) ∧
        tg.Perm (targetChunks [0, 1, 2, 3, 4, 5, 6, 7, 8, 9, 10, 11] 2 3) :=
  perm_is_bijection [0, 1, 2, 3, 4, 5, 6, 7, 8, 9, 10, 11] 2 3
    (by decide) (by decide) (by decide) (by decide)

theorem reorder_shapes_witness :
    ∃ xo tg,
      reorder [0, 1, 2, 3, 4, 5, 6, 7, 8, 9, 10, 11, 12] 2 3 = some (xo, tg) ∧
      xo.length = (truncStream [0, 1, 2, 3, 4, 5, 6, 7, 8, 9, 10, 11, 12] 2 3).length / (2 * 3) * 2 ∧
      tg.length = (truncStream [0, 1, 2, 3, 4, 5, 6, 7, 8, 9, 10, 11, 12] 2 3).length / (2 * 3) * 2 ∧
      (∀ row ∈ xo, row.length = 3) ∧
      (∀ row ∈ tg, row.length = 3) ∧
      2 ∣ xo.length :=
  reorder_shapes [0, 1, 2, 3, 4, 5, 6, 7, 8, 9, 10, 11, 12] 2 3
    (by decide) (by decide) (by decide)

/-- C3 refuted on the training loop: instantiating the abstract stepper
with `f i s = (0, s + 1)` and running a 2-batch epoch from state `0`, the
trace's first components show that *every* call — including call 1 —
receives the initial state `0`, while the third components show call 0
returned state `1`; so the state passed to call 1 (`0`) differs from the
final state returned by call 0 (`1`).  By contrast `evalLoop`
(`calc_perplexity`) threads correctly: its trace is
`[(0, 0, 1), (1, 0, 2)]`, each call receiving the previous call's returned
state.  The source's own comments (lines 9-10, 77-78, 249-252) state that
each batch must start from the previous batch's last hidden state, so the
training loop's behaviour (lines 344-345 bind `hid1, hid2` but never write
them back into `hidden_states`) is a defect in the code, not the claim. -/
theorem trainLoop_drops_returned_state :
    (trainLoop (fun _ s => ((0 : ℤ), s + 1)) 2 0 (0 : ℤ)).map (fun c => c.1)
        = [0, 0] ∧
      (trainLoop (fun _ s => ((0 : ℤ), s + 1)) 2 0 (0 : ℤ)).map (fun c => c.2.2)
        = [1, 1] ∧
      (0 : ℤ) ≠ 1 ∧
      evalLoop (fun _ s => ((0 : ℤ), s + 1)) 2 0 (0 : ℤ)
        = [(0, 0, 1), (1, 0, 2)] := by
  refine ⟨by decide, by decide, by decide, by decide⟩

/-- C8: at every epoch boundary the hidden state fed to batch 0 of the new
epoch is the stack of zero matrices of shape
`(BATCH_SIZE, REC_NUM_UNITS)`, one per recurrent sub-network — every lane
row of every layer is the `REC_NUM_UNITS`-wide zero vector — regardless of
the prior epoch's final state (the theorem quantifies over an arbitrary
stepper `f`, hence over arbitrary prior-epoch dynamics, and the epoch `e`
is arbitrary). -/
theorem epoch_zero_hidden_init {γ : Type}
    (f : ℕ → List (List (List ℚ)) → γ × List (List (List ℚ)))
    (nEpochs nBatchesTrain nLayers e : ℕ)
    (he : e < nEpochs) (hn : 0 < nBatchesTrain) :
    ((runEpochs f nEpochs nBatchesTrain nLayers).getD e []).head?.map
        (fun c => c.1) = some (zeroHiddenStates nLayers) ∧
      ∀ l < nLayers, ∀ lane < BATCH_SIZE,
        ((zeroHiddenStates nLayers).getD l []).getD lane []
          = List.replicate REC_NUM_UNITS (0 : ℚ) := by
  constructor
  · unfold runEpochs
    rw [List.getD_eq_getElem?_getD, List.getElem?_map, List.getElem?_range he]
    cases hn' : nBatchesTrain with
    | zero => omega
    | succ m => rfl
  · intro l hl lane hlane
    unfold zeroHiddenStates npZeros
    simp [List.getD_eq_getElem?_getD, List.getElem?_replicate, hl, hlane]

theorem epoch_zero_hidden_init_witness :
    ((runEpochs (fun _ s => ((0 : ℤ), s)) 1 1 2).getD 0 []).head?.map
        (fun c => c.1) = some (zeroHiddenStates 2) ∧
      ∀ l < 2, ∀ lane < BATCH_SIZE,
        ((zeroHiddenStates 2).getD l []).getD lane []
          = List.replicate REC_NUM_UNITS (0 : ℚ) :=
  epoch_zero_hidden_init (fun _ s => ((0 : ℤ), s)) 1 1 2 0 (by decide) (by decide)

end RnnModel
